import Mathlib

/-!
Verification of the `image_splitting` Rust library (`src/lib.rs`).

The library exposes two functions over a decoded image:
* `split_image` — splits an image into a 3×3 grid of `floor(w/3) × floor(h/3)`
  tiles (remainder pixels at the far edges are dropped);
* `split_image_with_size` — splits an image into caller-sized tiles using
  ceiling division for the row/column counts, clamping edge tiles.

The embedding below models:
* a decoded image as its dimensions plus a total pixel function (the `image`
  crate's `GenericImageView`);
* `u32` arithmetic with release-mode wrapping semantics (`% 2^32`), since all
  dimension arithmetic in the source is on `u32`;
* `DynamicImage::crop_imm` of the `image` crate, which clamps the requested
  rectangle to the image bounds (`x.min(iw)`, `y.min(ih)`,
  `height.min(ih - y)`, `width.min(iw - x)` in that order);
* the `u32` division-by-zero panic as `Option.none` (the only panic reachable
  in `split_image_with_size` after a successful decode);
* `to_rgba8` as the identity on dimensions and pixel content (the source
  images are already RGBA buffers in this model; the pixel type is abstract).

Image decoding (`image::open`) is an external collaborator: both functions
propagate its error verbatim and touch the image only afterwards, so the
claims are settled on the post-decode computation, which takes the decoded
image as input.
-/

namespace ImageSplitting

/-- `2^32`, the modulus of Rust `u32` arithmetic. -/
def U32 : Nat := 4294967296

/-- A decoded image: `width`/`height` in pixels (a `u32` in the source, so
`< 2^32` for any real image) and a total pixel-lookup function. The pixel
type `α` is abstract (RGBA in the source). -/
structure Img (α : Type) where
  width : Nat
  height : Nat
  pix : Nat → Nat → α

/-- Wrapping `u32` addition (Rust release semantics). -/
def wadd (a b : Nat) : Nat := (a + b) % U32

/-- Wrapping `u32` subtraction `a - b` (Rust release semantics), for
`b < 2^32`. -/
def wsub (a b : Nat) : Nat := (a + U32 - b) % U32

/-- Wrapping `u32` multiplication (Rust release semantics). -/
def wmul (a b : Nat) : Nat := (a * b) % U32

/-- The ceiling-division expression `(w + tw - 1) / tw` of `lib.rs` lines
91–92, in wrapping `u32` arithmetic (the `tw = 0` panic is handled at the
call site in `split_image_with_size`). -/
def numCols (w tw : Nat) : Nat := wsub (wadd w tw) 1 / tw

/-- Exact (mathematical) ceiling division `(a + b - 1) / b`, as defined in
the spec's glossary; used to compare against the wrapping computation. -/
def ceilDiv (a b : Nat) : Nat := (a + b - 1) / b

/-- `DynamicImage::crop_imm` of the `image` crate: clamps the requested
rectangle to the image bounds and returns a view whose pixel `(px, py)` is
the source pixel `(x' + px, y' + py)`. -/
def crop_imm {α : Type} (img : Img α) (x y w h : Nat) : Img α :=
  let x' := min x img.width
  let y' := min y img.height
  let h' := min h (img.height - y')
  let w' := min w (img.width - x')
  ⟨w', h', fun px py => img.pix (x' + px) (y' + py)⟩

/-- The loop body of `split_image_with_size` (`lib.rs` lines 99–113) for
grid column `x` and row `y`: compute the tile origin, clamp the tile size at
the right/bottom edge, and crop. All arithmetic is wrapping `u32`. -/
def tileAt {α : Type} (img : Img α) (sub_width sub_height x y : Nat) : Img α :=
  let x_pos := wmul x sub_width
  let y_pos := wmul y sub_height
  let actual_width := min (wsub img.width x_pos) sub_width
  let actual_height := min (wsub img.height y_pos) sub_height
  crop_imm img x_pos y_pos actual_width actual_height

/-- `split_image` (`lib.rs` lines 27–55), after the external decode: floor
the sub-dimensions by 3 and crop a 3×3 grid in row-major order (outer loop
over `y`, inner over `x`). -/
def split_image {α : Type} (img : Img α) : List (Img α) :=
  let sub_width := img.width / 3
  let sub_height := img.height / 3
  (List.range 3).flatMap fun y =>
    (List.range 3).map fun x =>
      crop_imm img (wmul x sub_width) (wmul y sub_height) sub_width sub_height

/-- `split_image_with_size` (`lib.rs` lines 79–118), after the external
decode. The guard models the Rust `u32` division-by-zero panic raised by the
ceiling divisions on lines 91–92 when `sub_width` or `sub_height` is `0`
(there is no explicit zero check in the source); `none` is "the call does
not return normally". Otherwise the tile grid is emitted in row-major order. -/
def split_image_with_size {α : Type} (img : Img α) (sub_width sub_height : Nat) :
    Option (List (Img α)) :=
  if sub_width = 0 ∨ sub_height = 0 then none
  else
    let num_cols := numCols img.width sub_width
    let num_rows := numCols img.height sub_height
    some ((List.range num_rows).flatMap fun y =>
      (List.range num_cols).map fun x =>
        tileAt img sub_width sub_height x y)

/-- A rectangular region request passed to `crop_imm`: origin and size. -/
structure Region where
  x : Nat
  y : Nat
  w : Nat
  h : Nat

/-- The sequence of region requests `split_image` issues to `crop_imm`
(`lib.rs` lines 43–48), in emission order. -/
def regions_uniform {α : Type} (img : Img α) : List Region :=
  let sub_width := img.width / 3
  let sub_height := img.height / 3
  (List.range 3).flatMap fun y =>
    (List.range 3).map fun x =>
      ⟨wmul x sub_width, wmul y sub_height, sub_width, sub_height⟩

/-- The region request of `split_image_with_size`'s loop body for grid
column `x` and row `y` (`lib.rs` lines 99–111). -/
def regionAt {α : Type} (img : Img α) (sub_width sub_height x y : Nat) : Region :=
  let x_pos := wmul x sub_width
  let y_pos := wmul y sub_height
  ⟨x_pos, y_pos, min (wsub img.width x_pos) sub_width,
    min (wsub img.height y_pos) sub_height⟩

/-- The sequence of region requests `split_image_with_size` issues to
`crop_imm`, in emission order (`none` models the division-by-zero panic,
as in `split_image_with_size`). -/
def regions_with_size {α : Type} (img : Img α) (sub_width sub_height : Nat) :
    Option (List Region) :=
  if sub_width = 0 ∨ sub_height = 0 then none
  else
    some ((List.range (numCols img.height sub_height)).flatMap fun y =>
      (List.range (numCols img.width sub_width)).map fun x =>
        regionAt img sub_width sub_height x y)

/-- A region is within the bounds of `img`. -/
def regionInBounds {α : Type} (img : Img α) (r : Region) : Prop :=
  r.x + r.w ≤ img.width ∧ r.y + r.h ≤ img.height

/-- Total pixel area of a list of tiles. -/
def tileAreaSum {α : Type} (l : List (Img α)) : Nat :=
  (l.map fun t => t.width * t.height).sum

/-- Tile `i` of `tiles` (for a grid with `nc` columns and tile pitch
`tw × th`) covers source pixel `(px, py)`: the tile exists and `(px, py)`
falls inside the rectangle at origin `((i % nc) * tw, (i / nc) * th)` of the
tile's size. -/
def tileCovers {α : Type} (tw th nc : Nat) (tiles : List (Img α))
    (i px py : Nat) : Prop :=
  ∃ t, tiles[i]? = some t ∧
    (i % nc) * tw ≤ px ∧ px < (i % nc) * tw + t.width ∧
    (i / nc) * th ≤ py ∧ py < (i / nc) * th + t.height

/-- Extensional equality of images: same dimensions and same pixel value at
every coordinate. -/
def ImgEq {α : Type} (a b : Img α) : Prop :=
  a.width = b.width ∧ a.height = b.height ∧ ∀ x y, a.pix x y = b.pix x y

/-! ### Concrete decoded images used to instantiate the theorems -/

/-- A 9×9 test image with distinct pixel values. -/
def img9 : Img Nat := ⟨9, 9, fun x y => 10 * y + x⟩

/-- A 10×10 test image (the spec's truncation-policy scenario). -/
def img10 : Img Nat := ⟨10, 10, fun x y => 16 * y + x⟩

/-- A 2×5 test image (uniform splitter with `width < 3`). -/
def img2x5 : Img Nat := ⟨2, 5, fun x y => 10 * y + x⟩

/-- A 4×4 test image. -/
def img44 : Img Nat := ⟨4, 4, fun x y => 10 * y + x⟩

/-- A 3×3 constant image. -/
def img3 : Img Nat := ⟨3, 3, fun _ _ => 0⟩

/-- A 4×4 constant image. -/
def img4 : Img Nat := ⟨4, 4, fun _ _ => 0⟩

/-- A 2×2 image, pixel `(x, y)` holds `x + y`. -/
def imgA : Img Nat := ⟨2, 2, fun x y => x + y⟩

/-- A 2×2 image, pixel `(x, y)` holds `y + x`: the same pixel contents as
`imgA` stored via a different function. -/
def imgB : Img Nat := ⟨2, 2, fun x y => y + x⟩

/-- The tile of `split_image img44` at output index 4 (grid row 1, col 1). -/
def t44 : Img Nat := crop_imm img44 (wmul 1 1) (wmul 1 1) 1 1

/-- The tiles of `split_image_with_size img44 3 3`, in emission order. -/
def tiles44 : List (Img Nat) :=
  [tileAt img44 3 3 0 0, tileAt img44 3 3 1 0,
   tileAt img44 3 3 0 1, tileAt img44 3 3 1 1]

/-- The tile of `split_image_with_size img44 3 3` at output index 3. -/
def u44 : Img Nat := tileAt img44 3 3 1 1

/-! ### Generic grid lemmas -/

/-- A row-major double loop is the single loop over `nr * nc` indices with
`y = i / nc`, `x = i % nc`. -/
theorem grid_eq_map {β : Type} (nr nc : Nat) (f : Nat → Nat → β) :
    ((List.range nr).flatMap fun y => (List.range nc).map (f y)) =
      (List.range (nr * nc)).map fun i => f (i / nc) (i % nc) := by
  rcases Nat.eq_zero_or_pos nc with hnc | hnc
  · subst hnc
    simp
  · induction nr with
    | zero => simp
    | succ n ih =>
      rw [List.range_succ, List.flatMap_append, ih, Nat.succ_mul,
        List.range_add, List.map_append, List.map_map]
      congr 1
      · simp only [List.flatMap_cons, List.flatMap_nil, List.append_nil]
        apply List.map_congr_left
        intro x hx
        have hxlt : x < nc := List.mem_range.mp hx
        have hdiv : (n * nc + x) / nc = n := by
          rw [Nat.mul_comm n nc, Nat.mul_add_div hnc]
          simp [Nat.div_eq_of_lt hxlt]
        have hmod : (n * nc + x) % nc = x := by
          rw [Nat.mul_comm n nc, Nat.mul_add_mod]
          exact Nat.mod_eq_of_lt hxlt
        simp [Function.comp, hdiv, hmod]

/-- Length of the row-major double loop. -/
theorem grid_length {β : Type} (nr nc : Nat) (f : Nat → Nat → β) :
    ((List.range nr).flatMap fun y => (List.range nc).map (f y)).length =
      nr * nc := by
  rw [grid_eq_map]
  simp

/-- Element `i` of the row-major double loop. -/
theorem grid_getElem {β : Type} (nr nc : Nat) (f : Nat → Nat → β)
    (i : Nat) (hi : i < nr * nc) :
    ((List.range nr).flatMap fun y => (List.range nc).map (f y))[i]? =
      some (f (i / nc) (i % nc)) := by
  rw [grid_eq_map, List.getElem?_map, List.getElem?_range hi]
  rfl

/-- Sum of a function mapped over `List.range` as a `Finset.range` sum. -/
theorem sum_map_range (n : Nat) (f : Nat → Nat) :
    ((List.range n).map f).sum = ∑ x ∈ Finset.range n, f x := by
  induction n with
  | zero => simp
  | succ m ih =>
    rw [List.range_succ, List.map_append, List.sum_append,
      Finset.sum_range_succ, ih]
    simp

/-! ### Ceiling-division arithmetic -/

/-- `ceilDiv` really is the ceiling: `w ≤ ceilDiv w tw * tw`. -/
theorem le_ceilDiv_mul (w tw : Nat) (htw : 0 < tw) : w ≤ ceilDiv w tw * tw := by
  rcases Nat.eq_zero_or_pos w with hw | hw
  · simp [hw]
  · have hco : ceilDiv w tw = (w - 1) / tw + 1 := by
      have : w + tw - 1 = (w - 1) + tw := by omega
      rw [ceilDiv, this, Nat.add_div_right _ htw]
    have h1 : (w - 1) / tw < ceilDiv w tw := by omega
    have h2 : w - 1 < ceilDiv w tw * tw := (Nat.div_lt_iff_lt_mul htw).mp h1
    omega

/-- A pixel column index below `w` lands in a grid column below `ceilDiv w tw`. -/
theorem div_lt_ceilDiv (px w tw : Nat) (htw : 0 < tw) (hpx : px < w) :
    px / tw < ceilDiv w tw := by
  rw [Nat.div_lt_iff_lt_mul htw]
  exact Nat.lt_of_lt_of_le hpx (le_ceilDiv_mul w tw htw)

/-- A grid column below `ceilDiv w tw` has its origin strictly inside `[0, w)`. -/
theorem mul_lt_of_lt_ceilDiv (x w tw : Nat) (htw : 0 < tw)
    (hx : x < ceilDiv w tw) : x * tw < w := by
  have hw : 0 < w := by
    by_contra hw0
    have : w = 0 := by omega
    subst this
    have : tw - 1 < tw := by omega
    rw [ceilDiv] at hx
    simp [Nat.div_eq_of_lt this] at hx
  have hco : ceilDiv w tw = (w - 1) / tw + 1 := by
    have : w + tw - 1 = (w - 1) + tw := by omega
    rw [ceilDiv, this, Nat.add_div_right _ htw]
  have hxle : x ≤ (w - 1) / tw := by omega
  have : x * tw ≤ (w - 1) / tw * tw := Nat.mul_le_mul_right tw hxle
  have h2 : (w - 1) / tw * tw ≤ w - 1 := Nat.div_mul_le_self _ _
  omega

/-- When the `u32` addition `w + tw` does not overflow, the wrapping
ceiling-division of the source agrees with exact ceiling division. -/
theorem numCols_eq_ceilDiv (w tw : Nat) (htw : 0 < tw) (hno : w + tw ≤ U32) :
    numCols w tw = ceilDiv w tw := by
  have h : wsub (wadd w tw) 1 = w + tw - 1 := by
    rw [wadd, wsub, U32] at *
    omega
  rw [numCols, h, ceilDiv]

/-- In-bounds origin, for any `u32` parameters (overflow allowed): a grid
column below the wrapped column count `numCols w tw` has its origin
`x * tw` unwrapped and strictly inside `[0, w)`. -/
theorem wmul_lt_of_lt_numCols (x w tw : Nat) (htw : 0 < tw) (hw : w < U32)
    (htwU : tw < U32) (hx : x < numCols w tw) :
    wmul x tw = x * tw ∧ x * tw < w := by
  have hS : wsub (wadd w tw) 1 ≤ w + tw - 1 := by
    rw [wadd, wsub, U32] at *
    omega
  have hx1 : (x + 1) * tw ≤ wsub (wadd w tw) 1 := by
    rw [numCols] at hx
    exact (Nat.le_div_iff_mul_le htw).mp hx
  have hxw : x * tw < w := by
    rw [Nat.succ_mul] at hx1
    omega
  refine ⟨?_, hxw⟩
  rw [wmul]
  have : x * tw < U32 := by omega
  exact Nat.mod_eq_of_lt this

/-- Wrapping subtraction coincides with exact subtraction when in range. -/
theorem wsub_eq_sub (w a : Nat) (ha : a ≤ w) (hw : w < U32) :
    wsub w a = w - a := by
  rw [wsub, U32] at *
  omega

/-- The tile the `split_image_with_size` loop body produces at grid column
`x`, row `y`: exact (unwrapped) origin and clamped size, with pixels read
from the source at the corresponding offset. -/
theorem tileAt_spec {α : Type} (img : Img α) (tw th x y : Nat)
    (htw : 0 < tw) (hth : 0 < th)
    (hw : img.width < U32) (hh : img.height < U32)
    (htwU : tw < U32) (hthU : th < U32)
    (hx : x < numCols img.width tw) (hy : y < numCols img.height th) :
    tileAt img tw th x y =
      ⟨min (img.width - x * tw) tw, min (img.height - y * th) th,
        fun q r => img.pix (x * tw + q) (y * th + r)⟩ := by
  obtain ⟨hmx, hxw⟩ := wmul_lt_of_lt_numCols x img.width tw htw hw htwU hx
  obtain ⟨hmy, hyh⟩ := wmul_lt_of_lt_numCols y img.height th hth hh hthU hy
  have hsx : wsub img.width (x * tw) = img.width - x * tw :=
    wsub_eq_sub _ _ (Nat.le_of_lt hxw) hw
  have hsy : wsub img.height (y * th) = img.height - y * th :=
    wsub_eq_sub _ _ (Nat.le_of_lt hyh) hh
  have hminx : min (x * tw) img.width = x * tw := Nat.min_eq_left (Nat.le_of_lt hxw)
  have hminy : min (y * th) img.height = y * th := Nat.min_eq_left (Nat.le_of_lt hyh)
  have haw : min (min (img.width - x * tw) tw) (img.width - x * tw) =
      min (img.width - x * tw) tw := Nat.min_eq_left (Nat.min_le_left _ _)
  have hah : min (min (img.height - y * th) th) (img.height - y * th) =
      min (img.height - y * th) th := Nat.min_eq_left (Nat.min_le_left _ _)
  simp only [tileAt, crop_imm, hmx, hmy, hsx, hsy, hminx, hminy, haw, hah]

/-- Summing the clamped column widths over all `ceilDiv w tw` grid columns
recovers `w` exactly: the columns partition the width. -/
theorem sum_min_cols : ∀ (n w tw : Nat), 0 < tw → ceilDiv w tw = n →
    (∑ x ∈ Finset.range n, min (w - x * tw) tw) = w := by
  intro n
  induction n with
  | zero =>
    intro w tw htw hn
    rw [ceilDiv] at hn
    have := (Nat.div_eq_zero_iff htw).mp hn
    have hw : w = 0 := by omega
    simp [hw]
  | succ m ih =>
    intro w tw htw hn
    have hw : 0 < w := by
      by_contra hw0
      have : w = 0 := by omega
      subst this
      rw [ceilDiv] at hn
      have : tw - 1 < tw := by omega
      simp [Nat.div_eq_of_lt this] at hn
    rcases le_or_lt w tw with hle | hlt
    · have hm : m = 0 := by
        rw [ceilDiv] at hn
        have h1 : w + tw - 1 < 2 * tw := by omega
        have h2 : (w + tw - 1) / tw < 2 := (Nat.div_lt_iff_lt_mul htw).mpr (by omega)
        omega
      subst hm
      rw [Finset.sum_range_succ]
      simp only [Finset.range_zero, Finset.sum_empty, Nat.zero_add, Nat.zero_mul,
        Nat.sub_zero]
      omega
    · have hco : ceilDiv (w - tw) tw = m := by
        rw [ceilDiv] at hn ⊢
        have heq : w + tw - 1 = (w - 1) + tw := by omega
        rw [heq, Nat.add_div_right _ htw] at hn
        have heq2 : w - tw + tw - 1 = w - 1 := by omega
        rw [heq2]
        omega
      have hsum := ih (w - tw) tw htw hco
      rw [Finset.sum_range_succ']
      have hbody : ∀ x, min (w - (x + 1) * tw) tw = min ((w - tw) - x * tw) tw := by
        intro x
        have : w - (x + 1) * tw = (w - tw) - x * tw := by
          rw [Nat.succ_mul]
          omega
        rw [this]
      simp only [hbody]
      rw [hsum]
      simp only [Nat.zero_mul, Nat.sub_zero]
      omega

/-- Inverting `grid_getElem`: a retrieved element pinpoints its grid cell. -/
theorem grid_getElem_some {β : Type} {nr nc i : Nat} {f : Nat → Nat → β} {t : β}
    (h : ((List.range nr).flatMap fun y => (List.range nc).map (f y))[i]? = some t) :
    i < nr * nc ∧ t = f (i / nc) (i % nc) := by
  rw [grid_eq_map, List.getElem?_map] at h
  cases hr : (List.range (nr * nc))[i]? with
  | none => rw [hr] at h; exact Option.noConfusion h
  | some k =>
    obtain ⟨hk, hkv⟩ := List.getElem?_eq_some_iff.mp hr
    rw [List.length_range] at hk
    rw [List.getElem_range] at hkv
    rw [hr] at h
    rw [Option.map_some'] at h
    injection h with h
    exact ⟨hk, by rw [← h, ← hkv]⟩

/-- Sum of a flattened double loop as a sum of row sums. -/
theorem sum_flatMap {β : Type} (l : List β) (f : β → List Nat) :
    (l.flatMap f).sum = (l.map fun b => (f b).sum).sum := by
  induction l with
  | nil => rfl
  | cons a l ih => simp [List.flatMap_cons, List.sum_append, ih]

/-- `split_image` unfolded to a single row-major loop over 9 indices. -/
theorem split_image_eq_map {α : Type} (img : Img α) :
    split_image img = (List.range 9).map fun i =>
      crop_imm img (wmul (i % 3) (img.width / 3)) (wmul (i / 3) (img.height / 3))
        (img.width / 3) (img.height / 3) := by
  rw [split_image]
  exact grid_eq_map 3 3 fun y x =>
    crop_imm img (wmul x (img.width / 3)) (wmul y (img.height / 3))
      (img.width / 3) (img.height / 3)

/-- Length of the uniform splitter's output. -/
theorem length_split_image {α : Type} (img : Img α) :
    (split_image img).length = 9 := by
  rw [split_image_eq_map, List.length_map, List.length_range]

/-- Inverting a successful `split_image_with_size`: the parameters are
nonzero and the tiles are the row-major grid of `tileAt` tiles. -/
theorem split_with_size_eq_some {α : Type} {img : Img α} {tw th : Nat}
    {tiles : List (Img α)} (h : split_image_with_size img tw th = some tiles) :
    0 < tw ∧ 0 < th ∧
      tiles = (List.range (numCols img.height th)).flatMap fun y =>
        (List.range (numCols img.width tw)).map fun x => tileAt img tw th x y := by
  by_cases hc : tw = 0 ∨ th = 0
  · rw [split_image_with_size, if_pos hc] at h
    exact absurd h (by simp)
  · push_neg at hc
    rw [split_image_with_size, if_neg (by push_neg; exact hc)] at h
    injection h with h
    exact ⟨Nat.pos_of_ne_zero hc.1, Nat.pos_of_ne_zero hc.2, h.symm⟩

/-- A successful `split_image_with_size` for nonzero parameters. -/
theorem split_with_size_eq {α : Type} (img : Img α) {tw th : Nat}
    (htw : 0 < tw) (hth : 0 < th) :
    split_image_with_size img tw th =
      some ((List.range (numCols img.height th)).flatMap fun y =>
        (List.range (numCols img.width tw)).map fun x => tileAt img tw th x y) := by
  rw [split_image_with_size, if_neg (by omega)]

/-- A positive ceiling quotient forces a positive numerator dimension. -/
theorem pos_of_ceilDiv_pos {w tw : Nat} (htw : 0 < tw)
    (h : 0 < ceilDiv w tw) : 0 < w := by
  by_contra hw
  have hw0 : w = 0 := by omega
  subst hw0
  rw [ceilDiv] at h
  have : tw - 1 < tw := by omega
  simp [Nat.div_eq_of_lt this] at h

/-- The fully-evaluated form of `split_image_with_size` in the no-overflow
regime: a row-major list over `ceil(h/th) * ceil(w/tw)` indices whose `i`-th
tile has the clamped size and reads source pixels at offset
`((i % nc) * tw, (i / nc) * th)`. -/
theorem with_size_tiles_spec {α : Type} (img : Img α) (tw th : Nat)
    (htw : 0 < tw) (hth : 0 < th)
    (hwo : img.width + tw ≤ U32) (hho : img.height + th ≤ U32) :
    split_image_with_size img tw th =
      some ((List.range (ceilDiv img.height th * ceilDiv img.width tw)).map fun i =>
        (⟨min (img.width - i % ceilDiv img.width tw * tw) tw,
          min (img.height - i / ceilDiv img.width tw * th) th,
          fun q r => img.pix (i % ceilDiv img.width tw * tw + q)
            (i / ceilDiv img.width tw * th + r)⟩ : Img α)) := by
  rw [split_with_size_eq img htw hth,
    numCols_eq_ceilDiv img.width tw htw hwo,
    numCols_eq_ceilDiv img.height th hth hho, grid_eq_map]
  congr 1
  apply List.map_congr_left
  intro i hi
  have hi' : i < ceilDiv img.height th * ceilDiv img.width tw := List.mem_range.mp hi
  have hnc : 0 < ceilDiv img.width tw := by
    rcases Nat.eq_zero_or_pos (ceilDiv img.width tw) with h0 | h0
    · rw [h0, Nat.mul_zero] at hi'; omega
    · exact h0
  have hx : i % ceilDiv img.width tw < ceilDiv img.width tw := Nat.mod_lt i hnc
  have hy : i / ceilDiv img.width tw < ceilDiv img.height th :=
    (Nat.div_lt_iff_lt_mul hnc).mpr hi'
  have hnr : 0 < ceilDiv img.height th := by
    rcases Nat.eq_zero_or_pos (ceilDiv img.height th) with h0 | h0
    · rw [h0, Nat.zero_mul] at hi'; omega
    · exact h0
  have hwpos : 0 < img.width := pos_of_ceilDiv_pos htw hnc
  have hhpos : 0 < img.height := pos_of_ceilDiv_pos hth hnr
  have hwU : img.width < U32 := by omega
  have hhU : img.height < U32 := by omega
  have htwU : tw < U32 := by omega
  have hthU : th < U32 := by omega
  rw [tileAt_spec img tw th _ _ htw hth hwU hhU htwU hthU
    (by rw [numCols_eq_ceilDiv img.width tw htw hwo]; exact hx)
    (by rw [numCols_eq_ceilDiv img.height th hth hho]; exact hy)]

/-- The uniform splitter's loop body at grid column `x`, row `y` (both `< 3`):
a full `floor(w/3) × floor(h/3)` tile reading source pixels at offset
`(x * (w/3), y * (h/3))`. -/
theorem uniform_tile_eq {α : Type} (img : Img α) (x y : Nat) (hx : x < 3)
    (hy : y < 3) (hw : img.width < U32) (hh : img.height < U32) :
    crop_imm img (wmul x (img.width / 3)) (wmul y (img.height / 3))
      (img.width / 3) (img.height / 3) =
    ⟨img.width / 3, img.height / 3,
      fun q r => img.pix (x * (img.width / 3) + q) (y * (img.height / 3) + r)⟩ := by
  have h3w : img.width / 3 * 3 ≤ img.width := Nat.div_mul_le_self _ _
  have h3h : img.height / 3 * 3 ≤ img.height := Nat.div_mul_le_self _ _
  have hxw : x * (img.width / 3) + img.width / 3 ≤ img.width := by
    have h1 : (x + 1) * (img.width / 3) ≤ 3 * (img.width / 3) :=
      Nat.mul_le_mul_right _ (by omega)
    have h2 : 3 * (img.width / 3) = img.width / 3 * 3 := Nat.mul_comm _ _
    rw [Nat.succ_mul] at h1
    omega
  have hyh : y * (img.height / 3) + img.height / 3 ≤ img.height := by
    have h1 : (y + 1) * (img.height / 3) ≤ 3 * (img.height / 3) :=
      Nat.mul_le_mul_right _ (by omega)
    have h2 : 3 * (img.height / 3) = img.height / 3 * 3 := Nat.mul_comm _ _
    rw [Nat.succ_mul] at h1
    omega
  have hmx : wmul x (img.width / 3) = x * (img.width / 3) :=
    Nat.mod_eq_of_lt (by omega)
  have hmy : wmul y (img.height / 3) = y * (img.height / 3) :=
    Nat.mod_eq_of_lt (by omega)
  have hminx : min (x * (img.width / 3)) img.width = x * (img.width / 3) :=
    Nat.min_eq_left (by omega)
  have hminy : min (y * (img.height / 3)) img.height = y * (img.height / 3) :=
    Nat.min_eq_left (by omega)
  have hw' : min (img.width / 3) (img.width - x * (img.width / 3)) =
      img.width / 3 := Nat.min_eq_left (by omega)
  have hh' : min (img.height / 3) (img.height - y * (img.height / 3)) =
      img.height / 3 := Nat.min_eq_left (by omega)
  simp only [crop_imm, hmx, hmy, hminx, hminy, hw', hh']

/-- `ceilDiv w tw` is positive as soon as `w` is. -/
theorem ceilDiv_pos {w tw : Nat} (htw : 0 < tw) (hw : 0 < w) :
    0 < ceilDiv w tw := by
  rw [ceilDiv]
  exact (Nat.le_div_iff_mul_le htw).mpr (by omega)

/-- Total area of the tile grid `split_image_with_size` emits (no-overflow
regime): the clamped column widths sum to `w` and the clamped row heights sum
to `h`, so the areas sum to `w * h`. -/
theorem with_size_area {α : Type} (img : Img α) (tw th : Nat)
    (htw : 0 < tw) (hth : 0 < th)
    (hwo : img.width + tw ≤ U32) (hho : img.height + th ≤ U32) :
    tileAreaSum ((List.range (numCols img.height th)).flatMap fun y =>
      (List.range (numCols img.width tw)).map fun x => tileAt img tw th x y) =
      img.width * img.height := by
  have hncE : numCols img.width tw = ceilDiv img.width tw :=
    numCols_eq_ceilDiv _ _ htw hwo
  have hnrE : numCols img.height th = ceilDiv img.height th :=
    numCols_eq_ceilDiv _ _ hth hho
  rw [tileAreaSum, List.map_flatMap, sum_flatMap]
  have hrow : ∀ y ∈ List.range (numCols img.height th),
      (List.map (fun t => t.width * t.height)
        ((List.range (numCols img.width tw)).map fun x => tileAt img tw th x y)).sum =
      img.width * min (img.height - y * th) th := by
    intro y hy
    have hy' : y < numCols img.height th := List.mem_range.mp hy
    rw [List.map_map]
    have hcell : ∀ x ∈ List.range (numCols img.width tw),
        ((fun t => t.width * t.height) ∘ fun x => tileAt img tw th x y) x =
        min (img.width - x * tw) tw * min (img.height - y * th) th := by
      intro x hx
      have hx' : x < numCols img.width tw := List.mem_range.mp hx
      have hwpos : 0 < img.width := by
        rw [hncE] at hx'
        exact pos_of_ceilDiv_pos htw (by omega)
      have hhpos : 0 < img.height := by
        rw [hnrE] at hy'
        exact pos_of_ceilDiv_pos hth (by omega)
      rw [Function.comp_apply,
        tileAt_spec img tw th x y htw hth (by omega) (by omega) (by omega)
          (by omega) hx' hy']
    rw [List.map_congr_left hcell, sum_map_range, ← Finset.sum_mul,
      sum_min_cols (numCols img.width tw) img.width tw htw hncE.symm]
  rw [List.map_congr_left hrow, sum_map_range, ← Finset.mul_sum,
    sum_min_cols (numCols img.height th) img.height th hth hnrE.symm]

/-- C1 (amended with the no-overflow side condition): for a decoded image
with `width, height ≥ 1` and tile size `tile_width, tile_height ≥ 1` such
that `width + tile_width ≤ 2^32` and `height + tile_height ≤ 2^32` (so the
`u32` ceiling-division additions of `lib.rs` lines 91–92 do not wrap),
`split_image_with_size` returns tiles that exactly partition the source:
the tile areas sum to `width * height`, every source pixel lies in exactly
one tile, and every tile pixel equals the corresponding source pixel — so
concatenating the tiles reconstructs the source image. -/
theorem with_size_exact_partition {α : Type} (img : Img α) (tw th : Nat)
    (hw1 : 0 < img.width) (hh1 : 0 < img.height)
    (htw : 0 < tw) (hth : 0 < th)
    (hwo : img.width + tw ≤ U32) (hho : img.height + th ≤ U32) :
    ∃ tiles, split_image_with_size img tw th = some tiles ∧
      tileAreaSum tiles = img.width * img.height ∧
      (∀ px py, px < img.width → py < img.height →
        ∃! i, tileCovers tw th (ceilDiv img.width tw) tiles i px py) ∧
      (∀ i t, tiles[i]? = some t → ∀ q r, q < t.width → r < t.height →
        t.pix q r = img.pix (i % ceilDiv img.width tw * tw + q)
          (i / ceilDiv img.width tw * th + r)) := by
  have hwU : img.width < U32 := by omega
  have hhU : img.height < U32 := by omega
  have htwU : tw < U32 := by omega
  have hthU : th < U32 := by omega
  have hncE : numCols img.width tw = ceilDiv img.width tw :=
    numCols_eq_ceilDiv _ _ htw hwo
  have hnrE : numCols img.height th = ceilDiv img.height th :=
    numCols_eq_ceilDiv _ _ hth hho
  refine ⟨_, split_with_size_eq img htw hth,
    with_size_area img tw th htw hth hwo hho, ?_, ?_⟩
  · intro px py hpx hpy
    rw [← hncE]
    have hcol : px / tw < numCols img.width tw := by
      rw [hncE]
      exact div_lt_ceilDiv px img.width tw htw hpx
    have hrow : py / th < numCols img.height th := by
      rw [hnrE]
      exact div_lt_ceilDiv py img.height th hth hpy
    have hncpos : 0 < numCols img.width tw :=
      Nat.lt_of_le_of_lt (Nat.zero_le _) hcol
    have hi0m : (py / th * numCols img.width tw + px / tw) % numCols img.width tw
        = px / tw := by
      rw [Nat.mul_comm, Nat.mul_add_mod]
      exact Nat.mod_eq_of_lt hcol
    have hi0d : (py / th * numCols img.width tw + px / tw) / numCols img.width tw
        = py / th := by
      rw [Nat.mul_comm, Nat.mul_add_div hncpos, Nat.div_eq_of_lt hcol, Nat.add_zero]
    have hi0lt : py / th * numCols img.width tw + px / tw
        < numCols img.height th * numCols img.width tw := by
      have h1 : py / th * numCols img.width tw + px / tw
          < (py / th + 1) * numCols img.width tw := by
        rw [Nat.succ_mul]
        omega
      have h2 : (py / th + 1) * numCols img.width tw
          ≤ numCols img.height th * numCols img.width tw :=
        Nat.mul_le_mul_right _ (by omega)
      omega
    have hg : (((List.range (numCols img.height th)).flatMap fun y =>
        (List.range (numCols img.width tw)).map fun x =>
          tileAt img tw th x y))[py / th * numCols img.width tw + px / tw]? =
        some (tileAt img tw th
          ((py / th * numCols img.width tw + px / tw) % numCols img.width tw)
          ((py / th * numCols img.width tw + px / tw) / numCols img.width tw)) :=
      grid_getElem _ _ _ _ hi0lt
    rw [hi0m, hi0d] at hg
    have hts := tileAt_spec img tw th (px / tw) (py / th) htw hth hwU hhU
      htwU hthU hcol hrow
    rw [hts] at hg
    have epx := Nat.div_add_mod px tw
    have mpx := Nat.mod_lt px htw
    have cmx : tw * (px / tw) = px / tw * tw := Nat.mul_comm _ _
    have epy := Nat.div_add_mod py th
    have mpy := Nat.mod_lt py hth
    have cmy : th * (py / th) = py / th * th := Nat.mul_comm _ _
    refine ⟨py / th * numCols img.width tw + px / tw,
      ⟨_, hg, ?_, ?_, ?_, ?_⟩, ?_⟩
    · rw [hi0m]
      exact Nat.div_mul_le_self _ _
    · rw [hi0m]
      show px < px / tw * tw + min (img.width - px / tw * tw) tw
      rcases le_total (img.width - px / tw * tw) tw with hmin | hmin
      · rw [Nat.min_eq_left hmin]
        omega
      · rw [Nat.min_eq_right hmin]
        omega
    · rw [hi0d]
      exact Nat.div_mul_le_self _ _
    · rw [hi0d]
      show py < py / th * th + min (img.height - py / th * th) th
      rcases le_total (img.height - py / th * th) th with hmin | hmin
      · rw [Nat.min_eq_left hmin]
        omega
      · rw [Nat.min_eq_right hmin]
        omega
    · rintro j ⟨u, hju, hj1, hj2, hj3, hj4⟩
      obtain ⟨hjlt, hueq⟩ := grid_getElem_some hju
      have hjx : j % numCols img.width tw < numCols img.width tw :=
        Nat.mod_lt _ hncpos
      have hjy : j / numCols img.width tw < numCols img.height th :=
        (Nat.div_lt_iff_lt_mul hncpos).mpr hjlt
      have hu := tileAt_spec img tw th _ _ htw hth hwU hhU htwU hthU hjx hjy
      rw [hu] at hueq
      have huw : u.width ≤ tw := by
        rw [hueq]
        exact Nat.min_le_right _ _
      have huh : u.height ≤ th := by
        rw [hueq]
        exact Nat.min_le_right _ _
      have hcol' : j % numCols img.width tw = px / tw := by
        have h2 : px < (j % numCols img.width tw + 1) * tw := by
          rw [Nat.succ_mul]
          omega
        exact (Nat.div_eq_of_lt_le hj1 h2).symm
      have hrow' : j / numCols img.width tw = py / th := by
        have h2 : py < (j / numCols img.width tw + 1) * th := by
          rw [Nat.succ_mul]
          omega
        exact (Nat.div_eq_of_lt_le hj3 h2).symm
      have hdm := Nat.div_add_mod j (numCols img.width tw)
      have cmj : numCols img.width tw * (j / numCols img.width tw) =
          j / numCols img.width tw * numCols img.width tw := Nat.mul_comm _ _
      rw [hcol', hrow'] at hdm
      rw [hrow'] at cmj
      omega
  · intro i t hit q r hq hr
    obtain ⟨hilt, hteq⟩ := grid_getElem_some hit
    have hncpos : 0 < numCols img.width tw := by
      rw [hncE]
      exact ceilDiv_pos htw hw1
    have hix : i % numCols img.width tw < numCols img.width tw :=
      Nat.mod_lt _ hncpos
    have hiy : i / numCols img.width tw < numCols img.height th :=
      (Nat.div_lt_iff_lt_mul hncpos).mpr hilt
    have hts := tileAt_spec img tw th _ _ htw hth hwU hhU htwU hthU hix hiy
    rw [hteq, hts, ← hncE]

/-- C5 (amended with the no-overflow side condition): with
`width + tile_width ≤ 2^32` and `height + tile_height ≤ 2^32`,
`split_image_with_size` produces exactly `ceil(w/tw) * ceil(h/th)` tiles;
the tile at output index `i` (grid column `i % num_cols`, row
`i / num_cols`) has dimensions `min(tw, w - col*tw) × min(th, h - row*th)`
and reads source pixels starting at top-left `(col*tw, row*th)`. -/
theorem with_size_count_and_dims {α : Type} (img : Img α) (tw th : Nat)
    (hw1 : 0 < img.width) (hh1 : 0 < img.height)
    (htw : 0 < tw) (hth : 0 < th)
    (hwo : img.width + tw ≤ U32) (hho : img.height + th ≤ U32) :
    ∃ tiles, split_image_with_size img tw th = some tiles ∧
      tiles.length = ceilDiv img.width tw * ceilDiv img.height th ∧
      ∀ i t, tiles[i]? = some t →
        t.width = min tw (img.width - i % ceilDiv img.width tw * tw) ∧
        t.height = min th (img.height - i / ceilDiv img.width tw * th) ∧
        ∀ q r, t.pix q r = img.pix (i % ceilDiv img.width tw * tw + q)
          (i / ceilDiv img.width tw * th + r) := by
  have hwU : img.width < U32 := by omega
  have hhU : img.height < U32 := by omega
  have htwU : tw < U32 := by omega
  have hthU : th < U32 := by omega
  have hncE : numCols img.width tw = ceilDiv img.width tw :=
    numCols_eq_ceilDiv _ _ htw hwo
  have hnrE : numCols img.height th = ceilDiv img.height th :=
    numCols_eq_ceilDiv _ _ hth hho
  refine ⟨_, split_with_size_eq img htw hth, ?_, ?_⟩
  · exact (grid_length (numCols img.height th) (numCols img.width tw)
      fun y x => tileAt img tw th x y).trans
        (by rw [hncE, hnrE, Nat.mul_comm])
  · intro i t hit
    obtain ⟨hilt, hteq⟩ := grid_getElem_some hit
    have hncpos : 0 < numCols img.width tw := by
      rw [hncE]
      exact ceilDiv_pos htw hw1
    have hix : i % numCols img.width tw < numCols img.width tw :=
      Nat.mod_lt _ hncpos
    have hiy : i / numCols img.width tw < numCols img.height th :=
      (Nat.div_lt_iff_lt_mul hncpos).mpr hilt
    have hts := tileAt_spec img tw th _ _ htw hth hwU hhU htwU hthU hix hiy
    rw [hteq, hts, ← hncE]
    exact ⟨Nat.min_comm _ _, Nat.min_comm _ _, fun q r => rfl⟩

/-- C3: the uniform splitter always returns exactly 9 tiles, for every
decoded image, regardless of its dimensions. -/
theorem split_image_returns_nine {α : Type} (img : Img α) :
    (split_image img).length = 9 :=
  length_split_image img

/-- C4: every tile of the uniform splitter has identical dimensions
`floor(w/3) × floor(h/3)`; the total covered area is `9 * (w/3) * (h/3)`
(for a 10×10 image, 81 rather than 100); and every tile's extent stays
within `[0, 3*(w/3)) × [0, 3*(h/3))`, so the `w mod 3` remainder columns
and `h mod 3` remainder rows at the far edge belong to no tile. -/
theorem split_image_tile_dims {α : Type} (img : Img α)
    (hw : img.width < U32) (hh : img.height < U32) :
    (∀ t ∈ split_image img, t.width = img.width / 3 ∧
      t.height = img.height / 3) ∧
    tileAreaSum (split_image img) = 9 * (img.width / 3 * (img.height / 3)) ∧
    3 * (img.width / 3) ≤ img.width ∧ 3 * (img.height / 3) ≤ img.height ∧
    ∀ i t, (split_image img)[i]? = some t →
      i % 3 * (img.width / 3) + t.width ≤ 3 * (img.width / 3) ∧
      i / 3 * (img.height / 3) + t.height ≤ 3 * (img.height / 3) := by
  refine ⟨?_, ?_, ?_, ?_, ?_⟩
  · rw [split_image_eq_map]
    intro t ht
    obtain ⟨i, hi, rfl⟩ := List.mem_map.mp ht
    have hi9 : i < 9 := List.mem_range.mp hi
    rw [uniform_tile_eq img (i % 3) (i / 3) (by omega) (by omega) hw hh]
    exact ⟨rfl, rfl⟩
  · rw [tileAreaSum, split_image_eq_map, List.map_map]
    have hcell : ∀ i ∈ List.range 9,
        ((fun t => t.width * t.height) ∘ fun i =>
          crop_imm img (wmul (i % 3) (img.width / 3))
            (wmul (i / 3) (img.height / 3)) (img.width / 3)
            (img.height / 3)) i =
        img.width / 3 * (img.height / 3) := by
      intro i hi
      have hi9 : i < 9 := List.mem_range.mp hi
      rw [Function.comp_apply,
        uniform_tile_eq img (i % 3) (i / 3) (by omega) (by omega) hw hh]
    rw [List.map_congr_left hcell, sum_map_range, Finset.sum_const,
      Finset.card_range, smul_eq_mul]
  · have := Nat.div_mul_le_self img.width 3
    omega
  · have := Nat.div_mul_le_self img.height 3
    omega
  · intro i t hit
    simp only [split_image] at hit
    obtain ⟨hi9, hteq⟩ := grid_getElem_some hit
    have hi9' : i < 9 := hi9
    rw [hteq, uniform_tile_eq img (i % 3) (i / 3) (by omega) (by omega) hw hh]
    have hx1 : (i % 3 + 1) * (img.width / 3) ≤ 3 * (img.width / 3) :=
      Nat.mul_le_mul_right _ (by omega)
    have hy1 : (i / 3 + 1) * (img.height / 3) ≤ 3 * (img.height / 3) :=
      Nat.mul_le_mul_right _ (by omega)
    rw [Nat.succ_mul] at hx1 hy1
    exact ⟨hx1, hy1⟩

/-- C7: for an image with `width < 3` or `height < 3`, the uniform splitter
still succeeds with 9 tiles, and every tile is degenerate (zero area),
because the floored sub-dimension is 0. -/
theorem split_image_degenerate {α : Type} (img : Img α)
    (h : img.width < 3 ∨ img.height < 3) :
    (split_image img).length = 9 ∧
    ∀ t ∈ split_image img, t.width * t.height = 0 := by
  refine ⟨length_split_image img, ?_⟩
  intro t ht
  simp only [split_image, List.mem_flatMap, List.mem_map, List.mem_range] at ht
  obtain ⟨y, hy, x, hx, rfl⟩ := ht
  rcases h with h | h
  · have hsw : img.width / 3 = 0 := by omega
    have hz : (crop_imm img (wmul x (img.width / 3)) (wmul y (img.height / 3))
        (img.width / 3) (img.height / 3)).width = 0 := by
      rw [hsw]
      simp [crop_imm]
    rw [hz, Nat.zero_mul]
  · have hsh : img.height / 3 = 0 := by omega
    have hz : (crop_imm img (wmul x (img.width / 3)) (wmul y (img.height / 3))
        (img.width / 3) (img.height / 3)).height = 0 := by
      rw [hsh]
      simp [crop_imm]
    rw [hz, Nat.mul_zero]

/-- C6: both splitters emit tiles in row-major order: output index `i`
corresponds to grid position `(row = i / num_cols, col = i % num_cols)` —
3 columns for the uniform splitter, `numCols` (the computed column count)
for the tile-size splitter. -/
theorem tiles_row_major {α : Type} (img : Img α) (tw th i j : Nat)
    (t u : Img α) (tiles : List (Img α))
    (h1 : (split_image img)[i]? = some t)
    (h2 : split_image_with_size img tw th = some tiles)
    (h3 : tiles[j]? = some u) :
    t = crop_imm img (wmul (i % 3) (img.width / 3))
      (wmul (i / 3) (img.height / 3)) (img.width / 3) (img.height / 3) ∧
    u = tileAt img tw th (j % numCols img.width tw)
      (j / numCols img.width tw) := by
  constructor
  · simp only [split_image] at h1
    exact (grid_getElem_some h1).2
  · obtain ⟨_, _, hte⟩ := split_with_size_eq_some h2
    subst hte
    exact (grid_getElem_some h3).2

/-- C2: with `tile_width = 0` or `tile_height = 0`, the ceiling division of
`lib.rs` lines 91–92 divides by zero and the call panics (modeled as
`none`); the source has no explicit zero check and never returns a distinct
`InvalidParameter` error. -/
theorem with_size_zero_param_panics {α : Type} (img : Img α) (tw th : Nat)
    (h : tw = 0 ∨ th = 0) : split_image_with_size img tw th = none := by
  rw [split_image_with_size, if_pos h]

/-- C9: the `u32` ceiling-division addition wraps modulo `2^32`: on a 3×3
image with `sub_width = sub_height = 2^32 - 1` (both ≥ 1) the computed
column count is 0, so the function returns an empty tile list — strictly
fewer tiles than `ceil(3/(2^32-1)) * ceil(3/(2^32-1)) = 1` — and the
returned sequence fails to cover the image (total tile area 0 < 9). -/
theorem with_size_overflow_undercount :
    split_image_with_size img3 4294967295 4294967295 = some [] ∧
    List.length ([] : List (Img Nat)) <
      ceilDiv img3.width 4294967295 * ceilDiv img3.height 4294967295 ∧
    tileAreaSum ([] : List (Img Nat)) < img3.width * img3.height := by
  refine ⟨rfl, by decide, by decide⟩

/-- C1 counterexample: with `tile_width = 2^32 - 1` and `tile_height = 1`
(all parameters ≥ 1) on a 3×3 image, the wrapped ceiling division yields 0
columns: `split_image_with_size` returns an empty tile list whose total
area 0 is less than `width * height = 9`, so the tiles do not partition
the source image as claimed. -/
theorem with_size_partition_cex :
    split_image_with_size img3 4294967295 1 = some [] ∧
    tileAreaSum ([] : List (Img Nat)) < img3.width * img3.height :=
  ⟨rfl, by decide⟩

/-- C5 counterexample: with `tile_width = 2^32 - 1` and `tile_height = 1`
on a 4×4 image, the function returns 0 tiles while the claimed count is
`ceil(4/(2^32-1)) * ceil(4/1) = 4`. -/
theorem with_size_count_cex :
    split_image_with_size img4 4294967295 1 = some [] ∧
    List.length ([] : List (Img Nat)) <
      ceilDiv img4.width 4294967295 * ceilDiv img4.height 1 :=
  ⟨rfl, by decide⟩

/-- Origin bound for the uniform splitter's grid: column `x < 3` starts at
the unwrapped `x * (w/3)` and its full `w/3` extent stays inside `w`. -/
theorem uniform_origin_bound (w x : Nat) (hx : x < 3) (hwU : w < U32) :
    wmul x (w / 3) = x * (w / 3) ∧ x * (w / 3) + w / 3 ≤ w := by
  have h3 : w / 3 * 3 ≤ w := Nat.div_mul_le_self _ _
  have h1 : (x + 1) * (w / 3) ≤ 3 * (w / 3) := Nat.mul_le_mul_right _ (by omega)
  have h2 : 3 * (w / 3) = w / 3 * 3 := Nat.mul_comm _ _
  rw [Nat.succ_mul] at h1
  exact ⟨Nat.mod_eq_of_lt (by omega), by omega⟩

/-- C8: every region either splitter requests from the pixel grid is within
image bounds (`x + region_width ≤ width`, `y + region_height ≤ height`), and
for nonzero tile parameters `split_image_with_size` completes without any
failure path after a successful decode. -/
theorem regions_in_bounds {α : Type} (img : Img α) (tw th : Nat)
    (hw1 : 0 < img.width) (hh1 : 0 < img.height)
    (hwU : img.width < U32) (hhU : img.height < U32)
    (htw : 0 < tw) (hth : 0 < th) (htwU : tw < U32) (hthU : th < U32) :
    (∀ r ∈ regions_uniform img, regionInBounds img r) ∧
    (∃ rs, regions_with_size img tw th = some rs ∧
      ∀ r ∈ rs, regionInBounds img r) ∧
    (split_image_with_size img tw th).isSome = true := by
  refine ⟨?_, ⟨(List.range (numCols img.height th)).flatMap fun y =>
      (List.range (numCols img.width tw)).map fun x => regionAt img tw th x y,
    by rw [regions_with_size, if_neg (by omega)], ?_⟩, ?_⟩
  · intro r hr
    simp only [regions_uniform, List.mem_flatMap, List.mem_map,
      List.mem_range] at hr
    obtain ⟨y, hy, x, hx, rfl⟩ := hr
    obtain ⟨hmx, hbx⟩ := uniform_origin_bound img.width x hx hwU
    obtain ⟨hmy, hby⟩ := uniform_origin_bound img.height y hy hhU
    constructor
    · show wmul x (img.width / 3) + img.width / 3 ≤ img.width
      rw [hmx]
      exact hbx
    · show wmul y (img.height / 3) + img.height / 3 ≤ img.height
      rw [hmy]
      exact hby
  · intro r hr
    simp only [List.mem_flatMap, List.mem_map, List.mem_range] at hr
    obtain ⟨y, hy, x, hx, rfl⟩ := hr
    obtain ⟨hmx, hxw⟩ := wmul_lt_of_lt_numCols x img.width tw htw hwU htwU hx
    obtain ⟨hmy, hyh⟩ := wmul_lt_of_lt_numCols y img.height th hth hhU hthU hy
    have hsx : wsub img.width (x * tw) = img.width - x * tw :=
      wsub_eq_sub _ _ (Nat.le_of_lt hxw) hwU
    have hsy : wsub img.height (y * th) = img.height - y * th :=
      wsub_eq_sub _ _ (Nat.le_of_lt hyh) hhU
    constructor
    · show wmul x tw + min (wsub img.width (wmul x tw)) tw ≤ img.width
      rw [hmx, hsx]
      have := Nat.min_le_left (img.width - x * tw) tw
      omega
    · show wmul y th + min (wsub img.height (wmul y th)) th ≤ img.height
      rw [hmy, hsy]
      have := Nat.min_le_left (img.height - y * th) th
      omega
  · rw [split_with_size_eq img htw hth]
    rfl

/-- `crop_imm` preserves extensional image equality. -/
theorem crop_imm_congr {α : Type} {a b : Img α} (hab : ImgEq a b)
    (x y w hgt : Nat) : ImgEq (crop_imm a x y w hgt) (crop_imm b x y w hgt) := by
  obtain ⟨hw, hh, hp⟩ := hab
  refine ⟨?_, ?_, ?_⟩
  · show min w (a.width - min x a.width) = min w (b.width - min x b.width)
    rw [hw]
  · show min hgt (a.height - min y a.height) = min hgt (b.height - min y b.height)
    rw [hh]
  · intro q r
    show a.pix (min x a.width + q) (min y a.height + r) =
      b.pix (min x b.width + q) (min y b.height + r)
    rw [hw, hh]
    exact hp _ _

/-- The tile-size loop body preserves extensional image equality. -/
theorem tileAt_congr {α : Type} {a b : Img α} (hab : ImgEq a b)
    (tw th x y : Nat) : ImgEq (tileAt a tw th x y) (tileAt b tw th x y) := by
  obtain ⟨hw, hh, hp⟩ := hab
  simp only [tileAt, hw, hh]
  exact crop_imm_congr ⟨hw, hh, hp⟩ _ _ _ _

/-- Mapping two pointwise-related functions over one list gives related
lists. -/
theorem forall2_map {α β : Type} (R : β → β → Prop) (l : List α)
    (f g : α → β) (h : ∀ x ∈ l, R (f x) (g x)) :
    List.Forall₂ R (l.map f) (l.map g) := by
  induction l with
  | nil => exact List.Forall₂.nil
  | cons a l ih =>
    exact List.Forall₂.cons (h a (by simp))
      (ih fun x hx => h x (by simp [hx]))

/-- Two row-major grids over the same index ranges with cellwise-related
bodies are related. -/
theorem forall2_grid {β : Type} (R : β → β → Prop) (nr nc : Nat)
    (f g : Nat → Nat → β) (h : ∀ y x, R (f y x) (g y x)) :
    List.Forall₂ R ((List.range nr).flatMap fun y => (List.range nc).map (f y))
      ((List.range nr).flatMap fun y => (List.range nc).map (g y)) := by
  rw [grid_eq_map, grid_eq_map]
  exact forall2_map _ _ _ _ fun i hi => h _ _

/-- C10: both splitters are deterministic functions of the decoded image's
dimensions and pixel contents: on extensionally equal inputs (same
dimensions, same pixel value at every coordinate — e.g. two decodes of the
same file) they return tile sequences of the same length whose tiles are
pairwise extensionally equal, and the tile-size splitter succeeds or panics
identically. -/
theorem splitters_deterministic {α : Type} (a b : Img α) (tw th : Nat)
    (hab : ImgEq a b) :
    List.Forall₂ ImgEq (split_image a) (split_image b) ∧
    ((split_image_with_size a tw th = none ∧
        split_image_with_size b tw th = none) ∨
      ∃ la lb, split_image_with_size a tw th = some la ∧
        split_image_with_size b tw th = some lb ∧
        List.Forall₂ ImgEq la lb) := by
  obtain ⟨hw, hh, hp⟩ := hab
  constructor
  · simp only [split_image, hw, hh]
    exact forall2_grid _ _ _ _ _ fun y x => crop_imm_congr ⟨hw, hh, hp⟩ _ _ _ _
  · by_cases hc : tw = 0 ∨ th = 0
    · exact Or.inl ⟨by rw [split_image_with_size, if_pos hc],
        by rw [split_image_with_size, if_pos hc]⟩
    · push_neg at hc
      have htw : 0 < tw := Nat.pos_of_ne_zero hc.1
      have hth : 0 < th := Nat.pos_of_ne_zero hc.2
      refine Or.inr ⟨_, _, split_with_size_eq a htw hth,
        split_with_size_eq b htw hth, ?_⟩
      rw [hw, hh]
      exact forall2_grid _ _ _ _ _ fun y x => tileAt_congr ⟨hw, hh, hp⟩ _ _ _ _

/-- C1 witness: the partition theorem instantiated on the 9×9 image with
5×5 tiles (the spec's concrete scenario: tiles 5×5, 4×5, 5×4, 4×4). -/
theorem with_size_exact_partition_witness :
    0 < img9.width ∧ 0 < img9.height ∧ 0 < 5 ∧ 0 < 5 ∧
    img9.width + 5 ≤ U32 ∧ img9.height + 5 ≤ U32 ∧
    (∃ tiles, split_image_with_size img9 5 5 = some tiles ∧
      tileAreaSum tiles = img9.width * img9.height ∧
      (∀ px py, px < img9.width → py < img9.height →
        ∃! i, tileCovers 5 5 (ceilDiv img9.width 5) tiles i px py) ∧
      (∀ i t, tiles[i]? = some t → ∀ q r, q < t.width → r < t.height →
        t.pix q r = img9.pix (i % ceilDiv img9.width 5 * 5 + q)
          (i / ceilDiv img9.width 5 * 5 + r))) :=
  ⟨by decide, by decide, by decide, by decide, by decide, by decide,
    with_size_exact_partition img9 5 5 (by decide) (by decide) (by decide)
      (by decide) (by decide) (by decide)⟩

/-- C2 witness: calling `split_image_with_size` with `tile_width = 0` on
the 3×3 image hits the division-by-zero panic. -/
theorem with_size_zero_param_panics_witness :
    ((0 : Nat) = 0 ∨ (5 : Nat) = 0) ∧
    split_image_with_size img3 0 5 = none :=
  ⟨Or.inl rfl, with_size_zero_param_panics img3 0 5 (Or.inl rfl)⟩

/-- C4 witness: the uniform-splitter dimension theorem instantiated on the
10×10 image: every tile is 3×3 and the covered area is `9 * (3 * 3) = 81`,
not 100. -/
theorem split_image_tile_dims_witness :
    img10.width < U32 ∧ img10.height < U32 ∧
    ((∀ t ∈ split_image img10, t.width = img10.width / 3 ∧
      t.height = img10.height / 3) ∧
    tileAreaSum (split_image img10) =
      9 * (img10.width / 3 * (img10.height / 3)) ∧
    3 * (img10.width / 3) ≤ img10.width ∧
    3 * (img10.height / 3) ≤ img10.height ∧
    ∀ i t, (split_image img10)[i]? = some t →
      i % 3 * (img10.width / 3) + t.width ≤ 3 * (img10.width / 3) ∧
      i / 3 * (img10.height / 3) + t.height ≤ 3 * (img10.height / 3)) :=
  ⟨by decide, by decide, split_image_tile_dims img10 (by decide) (by decide)⟩

/-- C5 witness: the count-and-dimensions theorem instantiated on the 10×10
image with 4×4 tiles: `ceil(10/4) * ceil(10/4) = 9` tiles, with the edge
columns clamped to width `min(4, 10 - 2*4) = 2`. -/
theorem with_size_count_and_dims_witness :
    0 < img10.width ∧ 0 < img10.height ∧ 0 < 4 ∧ 0 < 4 ∧
    img10.width + 4 ≤ U32 ∧ img10.height + 4 ≤ U32 ∧
    (∃ tiles, split_image_with_size img10 4 4 = some tiles ∧
      tiles.length = ceilDiv img10.width 4 * ceilDiv img10.height 4 ∧
      ∀ i t, tiles[i]? = some t →
        t.width = min 4 (img10.width - i % ceilDiv img10.width 4 * 4) ∧
        t.height = min 4 (img10.height - i / ceilDiv img10.width 4 * 4) ∧
        ∀ q r, t.pix q r = img10.pix (i % ceilDiv img10.width 4 * 4 + q)
          (i / ceilDiv img10.width 4 * 4 + r)) :=
  ⟨by decide, by decide, by decide, by decide, by decide, by decide,
    with_size_count_and_dims img10 4 4 (by decide) (by decide) (by decide)
      (by decide) (by decide) (by decide)⟩

/-- C6 witness: row-major ordering checked at concrete indices on the 4×4
image: uniform tile 4 is grid cell `(row 1, col 1)`, and 3×3-pitch tile 3
is grid cell `(row 3 / 2 = 1, col 3 % 2 = 1)`. -/
theorem tiles_row_major_witness :
    (split_image img44)[4]? = some t44 ∧
    split_image_with_size img44 3 3 = some tiles44 ∧
    tiles44[3]? = some u44 ∧
    (t44 = crop_imm img44 (wmul (4 % 3) (img44.width / 3))
      (wmul (4 / 3) (img44.height / 3)) (img44.width / 3)
      (img44.height / 3) ∧
    u44 = tileAt img44 3 3 (3 % numCols img44.width 3)
      (3 / numCols img44.width 3)) :=
  ⟨rfl, rfl, rfl, tiles_row_major img44 3 3 4 3 t44 u44 tiles44 rfl rfl rfl⟩

/-- C7 witness: the degenerate-tile theorem instantiated on the 2×5 image:
9 tiles, all of zero area. -/
theorem split_image_degenerate_witness :
    (img2x5.width < 3 ∨ img2x5.height < 3) ∧
    ((split_image img2x5).length = 9 ∧
      ∀ t ∈ split_image img2x5, t.width * t.height = 0) :=
  ⟨Or.inl (by decide), split_image_degenerate img2x5 (Or.inl (by decide))⟩

/-- C8 witness: the in-bounds theorem instantiated on the 9×9 image with
4×4 tiles. -/
theorem regions_in_bounds_witness :
    0 < img9.width ∧ 0 < img9.height ∧
    img9.width < U32 ∧ img9.height < U32 ∧
    0 < 4 ∧ 0 < 4 ∧ 4 < U32 ∧ 4 < U32 ∧
    ((∀ r ∈ regions_uniform img9, regionInBounds img9 r) ∧
    (∃ rs, regions_with_size img9 4 4 = some rs ∧
      ∀ r ∈ rs, regionInBounds img9 r) ∧
    (split_image_with_size img9 4 4).isSome = true) :=
  ⟨by decide, by decide, by decide, by decide, by decide, by decide,
    by decide, by decide,
    regions_in_bounds img9 4 4 (by decide) (by decide) (by decide) (by decide)
      (by decide) (by decide) (by decide) (by decide)⟩

/-- C10 witness: determinism instantiated on two 2×2 images holding the
same pixel contents through different pixel functions (`x + y` versus
`y + x`). -/
theorem splitters_deterministic_witness :
    ImgEq imgA imgB ∧
    (List.Forall₂ ImgEq (split_image imgA) (split_image imgB) ∧
    ((split_image_with_size imgA 2 2 = none ∧
        split_image_with_size imgB 2 2 = none) ∨
      ∃ la lb, split_image_with_size imgA 2 2 = some la ∧
        split_image_with_size imgB 2 2 = some lb ∧
        List.Forall₂ ImgEq la lb)) :=
  ⟨⟨rfl, rfl, fun x y => Nat.add_comm x y⟩,
    splitters_deterministic imgA imgB 2 2
      ⟨rfl, rfl, fun x y => Nat.add_comm x y⟩⟩
